import Mathlib

/-!
Shallow embedding of the reconciliation core of `src/index.ts`
(detect-minecraft-versions): version extraction from download URLs,
loading of the persisted snapshot, and the reconciliation of freshly
fetched version descriptors against the prior persisted state
(change detection, history append, deduplication, sorting).

Timestamps (`releasedAt`, produced in the code by
`new Date().toISOString()` and compared via `new Date(s).getTime()`)
are modelled as natural numbers (the time value); the script only ever
stores round-tripped ISO strings, on which the time value is faithful.
-/

/-- The two release channels (the `type` field of a history entry). -/
inductive Channel where
  | stable
  | preview
deriving DecidableEq, Repr

/-- `VersionInfo` of `src/index.ts`: one channel's descriptor as persisted. -/
structure VersionInfo where
  version : String
  windows : String
  linux : String
  releasedAt : Nat
deriving DecidableEq, Repr

/-- `HistoryEntry` of `src/index.ts`. -/
structure HistoryEntry where
  type : Channel
  version : String
  windows : String
  linux : String
  releasedAt : Nat
deriving DecidableEq, Repr

/-- The `latest` object of `VersionData`. -/
structure LatestVersions where
  stable : VersionInfo
  preview : VersionInfo
deriving DecidableEq, Repr

/-- `VersionData` of `src/index.ts`: the persisted JSON document. -/
structure VersionData where
  latest : LatestVersions
  history : List HistoryEntry
deriving DecidableEq, Repr

/-- The deduplication key: `(entry.type, entry.version)` as used by
`newHistory.filter((entry, index, self) => index === self.findIndex((e) =>
e.type === entry.type && e.version === entry.version))`. -/
def entryKey (e : HistoryEntry) : Channel × String :=
  (e.type, e.version)

/-- Worker for the duplicate-removal filter: an entry is kept exactly when
no earlier entry of the list (kept or dropped) has the same
`(type, version)` key, i.e. when its index equals the `findIndex` of its
key.  `seen` accumulates the keys of the entries already scanned. -/
def dedupeAux : List HistoryEntry → List (Channel × String) → List HistoryEntry
  | [], _ => []
  | e :: rest, seen =>
      if entryKey e ∈ seen then dedupeAux rest seen
      else e :: dedupeAux rest (entryKey e :: seen)

/-- Lines 165-168 of `src/index.ts`: remove duplicates from history by
`(type, version)`, keeping the first occurrence. -/
def dedupeHistory (l : List HistoryEntry) : List HistoryEntry :=
  dedupeAux l []

/-- One insertion step of the stable sort by `releasedAt` descending:
`x` moves past every entry with a strictly larger time value and lands
before the first entry whose time value is `≤` its own, so entries with
equal time values keep their relative order. -/
def insertByTime (x : HistoryEntry) : List HistoryEntry → List HistoryEntry
  | [] => [x]
  | y :: ys => if x.releasedAt < y.releasedAt then y :: insertByTime x ys
               else x :: y :: ys

/-- Lines 170-171 of `src/index.ts`:
`uniqueHistory.sort((a, b) => new Date(b.releasedAt).getTime() - new
Date(a.releasedAt).getTime())` — a stable sort (ES2019
`Array.prototype.sort` is stable) by time value, newest first, modelled
as a stable insertion sort under the same total preorder. -/
def sortHistory : List HistoryEntry → List HistoryEntry
  | [] => []
  | x :: xs => insertByTime x (sortHistory xs)

/-- The history pipeline of lines 165-171: deduplicate, then sort. -/
def mergeHistory (l : List HistoryEntry) : List HistoryEntry :=
  sortHistory (dedupeHistory l)

/-- The history entry pushed for a channel whose version changed
(lines 131-137 and 147-153): the PRIOR descriptor, carrying its own
`releasedAt`. -/
def priorEntry (c : Channel) (v : VersionInfo) : HistoryEntry :=
  { type := c, version := v.version, windows := v.windows,
    linux := v.linux, releasedAt := v.releasedAt }

/-- A freshly fetched channel descriptor before it is timestamped
(the version string extracted from the download URLs, plus the two
URLs themselves). -/
structure FetchedChannel where
  version : String
  windows : String
  linux : String
deriving DecidableEq, Repr

/-- Timestamping of a fetched descriptor inside `fetchLatestVersions`:
`releasedAt` is set to `now` (`new Date().toISOString()`). -/
def mkChan (f : FetchedChannel) (now : Nat) : VersionInfo :=
  { version := f.version, windows := f.windows, linux := f.linux,
    releasedAt := now }

/-- The pair returned by `fetchLatestVersions`: both channels get the
same `now`. -/
def mkLatest (st pv : FetchedChannel) (now : Nat) : LatestVersions :=
  { stable := mkChan st now, preview := mkChan pv now }

/-- Lines 118-176 of `src/index.ts` (the body of `main` between the load
and the write): given the fetched `latestVersions` and the optionally
loaded `existingData`, produce `(hasChanges, versionData)`.

* No existing data: `hasChanges = true`, history stays the (empty)
  initial `newHistory`, latest is the fetched pair as is.
* Otherwise each channel is compared on `version` with `!==`; a changed
  channel pushes the prior descriptor onto the history (stable first,
  then preview, matching the statement order) and keeps the fetched
  descriptor with its fresh timestamp; an unchanged channel overwrites
  the fetched `releasedAt` with the prior one.
* The history then goes through the dedupe-and-sort pipeline.  -/
def reconcile (latestVersions : LatestVersions) (existingData : Option VersionData) :
    Bool × VersionData :=
  match existingData with
  | none =>
      (true, { latest := latestVersions, history := mergeHistory [] })
  | some existing =>
      let stableChanged : Bool := existing.latest.stable.version != latestVersions.stable.version
      let previewChanged : Bool := existing.latest.preview.version != latestVersions.preview.version
      let stableHist : List HistoryEntry :=
        if stableChanged then [priorEntry Channel.stable existing.latest.stable] else []
      let newStable : VersionInfo :=
        if stableChanged then latestVersions.stable
        else { latestVersions.stable with releasedAt := existing.latest.stable.releasedAt }
      let previewHist : List HistoryEntry :=
        if previewChanged then [priorEntry Channel.preview existing.latest.preview] else []
      let newPreview : VersionInfo :=
        if previewChanged then latestVersions.preview
        else { latestVersions.preview with releasedAt := existing.latest.preview.releasedAt }
      let newHistory : List HistoryEntry := existing.history ++ stableHist ++ previewHist
      (stableChanged || previewChanged,
       { latest := { stable := newStable, preview := newPreview },
         history := mergeHistory newHistory })

/-- Channel-indexed view of a `LatestVersions` pair. -/
def latestOf (l : LatestVersions) : Channel → VersionInfo
  | Channel.stable => l.stable
  | Channel.preview => l.preview

/-- Channel-indexed view of the fetched pair. -/
def chanOf (st pv : FetchedChannel) : Channel → FetchedChannel
  | Channel.stable => st
  | Channel.preview => pv

/-! ### The snapshot store: `loadExistingData` -/

/-- The state of the file at the output path, as far as
`loadExistingData` can observe it: missing, existing but failing
`JSON.parse`, or parsing into a `VersionData`. -/
inductive FileState where
  | missing
  | unparseable
  | parsed (d : VersionData)
deriving DecidableEq

/-- Possible outcomes of loading the prior state.  `readError` is the
spec's `StoreReadError`; the TypeScript function returns
`VersionData | null`, so `null` is embedded as `absent`. -/
inductive LoadOutcome where
  | absent
  | loaded (d : VersionData)
  | readError
deriving DecidableEq

/-- Lines 83-95 of `src/index.ts`: return `null` when the file does not
exist; on a read/parse exception, log a warning and ALSO return `null`;
otherwise return the parsed data. -/
def loadExistingData : FileState → LoadOutcome
  | FileState.missing => LoadOutcome.absent
  | FileState.unparseable => LoadOutcome.absent
  | FileState.parsed d => LoadOutcome.loaded d

/-! ### Version extraction: `extractVersion` and the fallback chain

`extractVersion` applies the regular expression
`/bedrock-server-(\d+\.\d+(?:\.\d+){1,2})\.zip/` to a URL and returns
the first (leftmost) capture, or `null`.  The pattern is embedded
directly: digit runs cannot straddle the literal dots, so the match is
the leftmost position at which the literal `bedrock-server-` is
followed by two dot-separated digit runs, then greedily one or two
further `.digits` groups, then the literal `.zip`. -/

/-- The literal part of the pattern before the capture group. -/
def serverMarker : List Char :=
  ['b', 'e', 'd', 'r', 'o', 'c', 'k', '-', 's', 'e', 'r', 'v', 'e', 'r', '-']

/-- The literal part of the pattern after the capture group. -/
def zipSuffix : List Char :=
  ['.', 'z', 'i', 'p']

/-- One `\.\d+` group: a literal dot followed by a nonempty maximal digit
run.  Returns the consumed characters (dot included) and the rest. -/
def matchDotNum : List Char → Option (List Char × List Char)
  | [] => none
  | a :: rest =>
      if a = '.' then
        if (rest.takeWhile Char.isDigit).isEmpty then none
        else some ('.' :: rest.takeWhile Char.isDigit, rest.dropWhile Char.isDigit)
      else none

/-- The part of the pattern after the literal `bedrock-server-`:
`(\d+\.\d+(?:\.\d+){1,2})\.zip`, greedy on the repetition, returning
the capture. -/
def matchTail (l : List Char) : Option (List Char) :=
  let d1 := l.takeWhile Char.isDigit
  if d1.isEmpty then none else
  match matchDotNum (l.dropWhile Char.isDigit) with
  | none => none
  | some (c2, r2) =>
    match matchDotNum r2 with
    | none => none
    | some (c3, r3) =>
      match matchDotNum r3 with
      | some (c4, r4) =>
          if zipSuffix.isPrefixOf r4 then some (d1 ++ c2 ++ c3 ++ c4)
          else if zipSuffix.isPrefixOf r3 then some (d1 ++ c2 ++ c3)
          else none
      | none =>
          if zipSuffix.isPrefixOf r3 then some (d1 ++ c2 ++ c3) else none

/-- Leftmost search: try the pattern at every position, left to right. -/
def extractVersionAux : List Char → Option (List Char)
  | [] => none
  | c :: rest =>
      if serverMarker.isPrefixOf (c :: rest) then
        match matchTail ((c :: rest).drop serverMarker.length) with
        | some cap => some cap
        | none => extractVersionAux rest
      else extractVersionAux rest

/-- Lines 43-46 of `src/index.ts`: `extractVersion(url)` — first capture
of the pattern, or `null` (`none`). -/
def extractVersion (url : String) : Option String :=
  (extractVersionAux url.data).map String.mk

/-- Lines 62-63 of `src/index.ts`:
`extractVersion(primary) || extractVersion(secondary) || 'unknown'`.
A capture is never the empty string (the digit runs are nonempty), so
JavaScript's falsy `||` chain on `string | null` coincides with the
`Option` fallback. -/
def channelVersion (primary secondary : String) : String :=
  ((extractVersion primary).or (extractVersion secondary)).getD "unknown"

/-- A well-formed capture: 3 or 4 dot-separated nonempty digit runs
(`\d+\.\d+(?:\.\d+){1,2}`). -/
def VersionShape (cap : List Char) : Prop :=
  ∃ (d1 d2 : List Char) (ds : List (List Char)),
    cap = d1 ++ '.' :: d2 ++ (ds.map (fun d => '.' :: d)).flatten ∧
    d1 ≠ [] ∧ d1.all Char.isDigit ∧ d2 ≠ [] ∧ d2.all Char.isDigit ∧
    (∀ d ∈ ds, d ≠ [] ∧ d.all Char.isDigit = true) ∧
    (ds.length = 1 ∨ ds.length = 2)

/-- `cap` is a capture of the pattern somewhere inside `url`: the URL
decomposes around `bedrock-server-` ++ capture ++ `.zip`, and the
capture has the dotted-number shape. -/
def CapturedFrom (url cap : List Char) : Prop :=
  (∃ pre post, url = pre ++ serverMarker ++ cap ++ zipSuffix ++ post) ∧
    VersionShape cap

/-! ### Helper lemmas: deduplication -/

/-- Every entry the duplicate-removal keeps comes from the input list. -/
theorem dedupeAux_subset {l : List HistoryEntry} {seen : List (Channel × String)}
    {e : HistoryEntry} (he : e ∈ dedupeAux l seen) : e ∈ l := by
  induction l generalizing seen with
  | nil => simp [dedupeAux] at he
  | cons a rest ih =>
    rw [dedupeAux] at he
    by_cases h : entryKey a ∈ seen
    · rw [if_pos h] at he
      exact List.mem_cons_of_mem a (ih he)
    · rw [if_neg h] at he
      rcases List.mem_cons.mp he with rfl | he'
      · exact List.mem_cons_self _ _
      · exact List.mem_cons_of_mem a (ih he')

/-- Characterization of the duplicate-removal filter: an entry survives
exactly when it occurs in the input at a position before which no entry
shares its `(type, version)` key (and its key was not already seen). -/
theorem mem_dedupeAux_iff {e : HistoryEntry} {l : List HistoryEntry}
    {seen : List (Channel × String)} :
    e ∈ dedupeAux l seen ↔
      entryKey e ∉ seen ∧
        ∃ l1 l2, l = l1 ++ e :: l2 ∧ ∀ x ∈ l1, entryKey x ≠ entryKey e := by
  induction l generalizing seen with
  | nil =>
    simp [dedupeAux]
  | cons a rest ih =>
    rw [dedupeAux]
    by_cases h : entryKey a ∈ seen
    · rw [if_pos h, ih]
      constructor
      · rintro ⟨hes, l1, l2, rfl, hfirst⟩
        refine ⟨hes, a :: l1, l2, rfl, ?_⟩
        intro x hx
        rcases List.mem_cons.mp hx with rfl | hx'
        · exact fun hk => hes (hk ▸ h)
        · exact hfirst x hx'
      · rintro ⟨hes, l1, l2, heq, hfirst⟩
        cases l1 with
        | nil =>
          have hae : a = e ∧ rest = l2 := by simpa using heq
          obtain ⟨rfl, rfl⟩ := hae
          exact absurd h hes
        | cons b l1' =>
          have hab : a = b ∧ rest = l1' ++ e :: l2 := by simpa using heq
          obtain ⟨rfl, hrest⟩ := hab
          exact ⟨hes, l1', l2, hrest, fun x hx => hfirst x (List.mem_cons_of_mem _ hx)⟩
    · rw [if_neg h]
      constructor
      · intro hmem
        rcases List.mem_cons.mp hmem with rfl | hmem'
        · exact ⟨h, [], rest, rfl, by simp⟩
        · rw [ih] at hmem'
          obtain ⟨hes, l1, l2, rfl, hfirst⟩ := hmem'
          have hnes : entryKey e ∉ seen := fun hs => hes (List.mem_cons_of_mem _ hs)
          have hne : entryKey e ≠ entryKey a := by
            intro hk
            exact hes (hk ▸ List.mem_cons_self _ _)
          refine ⟨hnes, a :: l1, l2, rfl, ?_⟩
          intro x hx
          rcases List.mem_cons.mp hx with rfl | hx'
          · exact fun hk => hne hk.symm
          · exact hfirst x hx'
      · rintro ⟨hes, l1, l2, heq, hfirst⟩
        cases l1 with
        | nil =>
          have hae : a = e ∧ rest = l2 := by simpa using heq
          obtain ⟨rfl, rfl⟩ := hae
          exact List.mem_cons_self _ _
        | cons b l1' =>
          have hab : a = b ∧ rest = l1' ++ e :: l2 := by simpa using heq
          obtain ⟨rfl, hrest⟩ := hab
          have hae : entryKey a ≠ entryKey e := hfirst a (List.mem_cons_self _ _)
          apply List.mem_cons_of_mem
          rw [ih]
          refine ⟨?_, l1', l2, hrest, fun x hx => hfirst x (List.mem_cons_of_mem _ hx)⟩
          intro hk
          rcases List.mem_cons.mp hk with hk' | hk''
          · exact hae hk'.symm
          · exact hes hk''

/-- Every entry kept by the filter has a key outside `seen`. -/
theorem dedupeAux_key_not_seen {l : List HistoryEntry} {seen : List (Channel × String)}
    {e : HistoryEntry} (he : e ∈ dedupeAux l seen) : entryKey e ∉ seen :=
  (mem_dedupeAux_iff.mp he).1

/-- The filter's output has pairwise-distinct `(type, version)` keys. -/
theorem dedupeAux_pairwise (l : List HistoryEntry) (seen : List (Channel × String)) :
    (dedupeAux l seen).Pairwise (fun a b => entryKey a ≠ entryKey b) := by
  induction l generalizing seen with
  | nil => simp [dedupeAux]
  | cons a rest ih =>
    rw [dedupeAux]
    by_cases h : entryKey a ∈ seen
    · rw [if_pos h]; exact ih seen
    · rw [if_neg h]
      refine List.pairwise_cons.mpr ⟨?_, ih _⟩
      intro b hb hk
      exact dedupeAux_key_not_seen hb (hk ▸ List.mem_cons_self _ _)

/-- On a list whose keys are pairwise distinct and disjoint from `seen`,
the filter keeps everything. -/
theorem dedupeAux_eq_self {l : List HistoryEntry} {seen : List (Channel × String)}
    (hd : ∀ a ∈ l, entryKey a ∉ seen)
    (hp : l.Pairwise (fun a b => entryKey a ≠ entryKey b)) :
    dedupeAux l seen = l := by
  induction l generalizing seen with
  | nil => rfl
  | cons a rest ih =>
    obtain ⟨ha, hrest⟩ := List.pairwise_cons.mp hp
    rw [dedupeAux, if_neg (hd a (List.mem_cons_self _ _))]
    congr 1
    apply ih _ hrest
    intro b hb hmem
    rcases List.mem_cons.mp hmem with h1 | h2
    · exact ha b hb h1.symm
    · exact hd b (List.mem_cons_of_mem _ hb) h2

/-! ### Helper lemmas: the stable sort -/

/-- Inserting is a permutation: the result is the element on top of the list. -/
theorem insertByTime_perm (x : HistoryEntry) (l : List HistoryEntry) :
    (insertByTime x l).Perm (x :: l) := by
  induction l with
  | nil => rfl
  | cons y ys ih =>
    rw [insertByTime]
    by_cases h : x.releasedAt < y.releasedAt
    · rw [if_pos h]
      exact (List.Perm.cons y ih).trans (List.Perm.swap x y ys)
    · rw [if_neg h]

/-- The sort permutes its input. -/
theorem sortHistory_perm (l : List HistoryEntry) : (sortHistory l).Perm l := by
  induction l with
  | nil => rfl
  | cons x xs ih =>
    rw [sortHistory]
    exact (insertByTime_perm x (sortHistory xs)).trans (List.Perm.cons x ih)

/-- Inserting into a descending-sorted list keeps it descending-sorted. -/
theorem insertByTime_sorted {x : HistoryEntry} {l : List HistoryEntry}
    (h : l.Pairwise (fun a b => b.releasedAt ≤ a.releasedAt)) :
    (insertByTime x l).Pairwise (fun a b => b.releasedAt ≤ a.releasedAt) := by
  induction l with
  | nil => simp [insertByTime]
  | cons y ys ih =>
    obtain ⟨hy, hys⟩ := List.pairwise_cons.mp h
    rw [insertByTime]
    by_cases hc : x.releasedAt < y.releasedAt
    · rw [if_pos hc]
      refine List.pairwise_cons.mpr ⟨?_, ih hys⟩
      intro b hb
      rcases List.mem_cons.mp ((insertByTime_perm x ys).mem_iff.mp hb) with rfl | hb'
      · exact Nat.le_of_lt hc
      · exact hy b hb'
    · rw [if_neg hc]
      refine List.pairwise_cons.mpr ⟨?_, h⟩
      intro b hb
      rcases List.mem_cons.mp hb with rfl | hb'
      · exact Nat.le_of_not_lt hc
      · exact Nat.le_trans (hy b hb') (Nat.le_of_not_lt hc)

/-- The sort's output is sorted by time value, newest first. -/
theorem sortHistory_sorted (l : List HistoryEntry) :
    (sortHistory l).Pairwise (fun a b => b.releasedAt ≤ a.releasedAt) := by
  induction l with
  | nil => simp [sortHistory]
  | cons x xs ih => exact insertByTime_sorted ih

/-- Stability of one insertion, phrased on the fibre of one time value:
inserting `x` puts it in front of exactly the entries of its own time
value and does not disturb the others. -/
theorem insertByTime_filter (x : HistoryEntry) (l : List HistoryEntry) (t : Nat) :
    (insertByTime x l).filter (fun e => e.releasedAt == t) =
      if x.releasedAt == t then x :: l.filter (fun e => e.releasedAt == t)
      else l.filter (fun e => e.releasedAt == t) := by
  induction l with
  | nil =>
    rw [insertByTime, List.filter_cons]
  | cons y ys ih =>
    rw [insertByTime]
    by_cases hc : x.releasedAt < y.releasedAt
    · rw [if_pos hc]
      by_cases hxt : (x.releasedAt == t) = true
      · have hxteq : x.releasedAt = t := by simpa using hxt
        have hyt : (y.releasedAt == t) = false := by
          simp only [beq_eq_false_iff_ne, ne_eq]
          omega
        simp [List.filter_cons, hxt, hyt, ih]
      · have hxf : (x.releasedAt == t) = false := Bool.eq_false_iff.mpr hxt
        simp [List.filter_cons, hxf, ih]
    · rw [if_neg hc, List.filter_cons]

/-- Stability of the sort: within each time value, the output lists the
entries in their input order. -/
theorem sortHistory_filter (l : List HistoryEntry) (t : Nat) :
    (sortHistory l).filter (fun e => e.releasedAt == t) =
      l.filter (fun e => e.releasedAt == t) := by
  induction l with
  | nil => rfl
  | cons x xs ih =>
    rw [sortHistory, insertByTime_filter, List.filter_cons]
    by_cases hxt : (x.releasedAt == t) = true
    · rw [if_pos hxt, if_pos hxt, ih]
    · rw [if_neg hxt, if_neg hxt, ih]

/-- Inserting on top of entries that are all older keeps the list as is. -/
theorem insertByTime_of_ge {x : HistoryEntry} {l : List HistoryEntry}
    (h : ∀ y ∈ l, y.releasedAt ≤ x.releasedAt) : insertByTime x l = x :: l := by
  cases l with
  | nil => rfl
  | cons y ys =>
    rw [insertByTime, if_neg (Nat.not_lt.mpr (h y (List.mem_cons_self _ _)))]

/-- Sorting a list that is already descending-sorted changes nothing. -/
theorem sortHistory_of_sorted {l : List HistoryEntry}
    (h : l.Pairwise (fun a b => b.releasedAt ≤ a.releasedAt)) : sortHistory l = l := by
  induction l with
  | nil => rfl
  | cons x xs ih =>
    obtain ⟨hx, hxs⟩ := List.pairwise_cons.mp h
    rw [sortHistory, ih hxs, insertByTime_of_ge hx]

/-! ### Helper lemmas: the merged history and the reconciler -/

/-- Key-distinctness is a symmetric relation. -/
theorem entryKeyNe_symm :
    Symmetric (fun a b : HistoryEntry => entryKey a ≠ entryKey b) :=
  fun _ _ h hk => h hk.symm

/-- The merged history comes from the input list. -/
theorem mergeHistory_subset {e : HistoryEntry} {l : List HistoryEntry}
    (h : e ∈ mergeHistory l) : e ∈ l := by
  rw [mergeHistory, (sortHistory_perm _).mem_iff] at h
  exact dedupeAux_subset h

/-- An entry is in the merged history exactly when it is the first
occurrence of its `(type, version)` key in the input list. -/
theorem mem_mergeHistory_iff {e : HistoryEntry} {l : List HistoryEntry} :
    e ∈ mergeHistory l ↔
      ∃ l1 l2, l = l1 ++ e :: l2 ∧ ∀ x ∈ l1, entryKey x ≠ entryKey e := by
  rw [mergeHistory, (sortHistory_perm _).mem_iff, dedupeHistory, mem_dedupeAux_iff]
  simp

/-- The merged history has pairwise-distinct keys. -/
theorem mergeHistory_unique (l : List HistoryEntry) :
    (mergeHistory l).Pairwise (fun a b => entryKey a ≠ entryKey b) :=
  ((sortHistory_perm (dedupeHistory l)).pairwise_iff
    (fun h => entryKeyNe_symm h)).mpr (dedupeAux_pairwise l [])

/-- The merged history is sorted by time value, newest first. -/
theorem mergeHistory_sorted (l : List HistoryEntry) :
    (mergeHistory l).Pairwise (fun a b => b.releasedAt ≤ a.releasedAt) :=
  sortHistory_sorted (dedupeHistory l)

/-- Merging a key-unique, descending-sorted list changes nothing. -/
theorem mergeHistory_eq_self {l : List HistoryEntry}
    (hu : l.Pairwise (fun a b => entryKey a ≠ entryKey b))
    (hs : l.Pairwise (fun a b => b.releasedAt ≤ a.releasedAt)) :
    mergeHistory l = l := by
  rw [mergeHistory, dedupeHistory, dedupeAux_eq_self (by simp) hu, sortHistory_of_sorted hs]

/-- Merging is idempotent. -/
theorem mergeHistory_idem (l : List HistoryEntry) :
    mergeHistory (mergeHistory l) = mergeHistory l :=
  mergeHistory_eq_self (mergeHistory_unique l) (mergeHistory_sorted l)

/-- The reconciler on a present prior state, written out. -/
theorem reconcile_some (L : LatestVersions) (ex : VersionData) :
    reconcile L (some ex) =
      ((ex.latest.stable.version != L.stable.version) ||
         (ex.latest.preview.version != L.preview.version),
       { latest :=
           { stable :=
               if ex.latest.stable.version != L.stable.version then L.stable
               else { L.stable with releasedAt := ex.latest.stable.releasedAt },
             preview :=
               if ex.latest.preview.version != L.preview.version then L.preview
               else { L.preview with releasedAt := ex.latest.preview.releasedAt } },
         history := mergeHistory (ex.history ++
           (if ex.latest.stable.version != L.stable.version then
              [priorEntry Channel.stable ex.latest.stable] else []) ++
           (if ex.latest.preview.version != L.preview.version then
              [priorEntry Channel.preview ex.latest.preview] else [])) }) := rfl

/-- Whatever the prior state, the reconciler's `latest.stable` is the
fetched stable descriptor up to its timestamp. -/
theorem reconcile_latest_stable (st pv : FetchedChannel) (now : Nat)
    (p : Option VersionData) :
    ∃ t, ((reconcile (mkLatest st pv now) p).2).latest.stable = mkChan st t := by
  cases p with
  | none => exact ⟨now, rfl⟩
  | some ex =>
    rw [reconcile_some]
    dsimp only
    split
    · exact ⟨now, rfl⟩
    · exact ⟨ex.latest.stable.releasedAt, rfl⟩

/-- Whatever the prior state, the reconciler's `latest.preview` is the
fetched preview descriptor up to its timestamp. -/
theorem reconcile_latest_preview (st pv : FetchedChannel) (now : Nat)
    (p : Option VersionData) :
    ∃ t, ((reconcile (mkLatest st pv now) p).2).latest.preview = mkChan pv t := by
  cases p with
  | none => exact ⟨now, rfl⟩
  | some ex =>
    rw [reconcile_some]
    dsimp only
    split
    · exact ⟨now, rfl⟩
    · exact ⟨ex.latest.preview.releasedAt, rfl⟩

/-- The reconciler's output history always went through the
dedupe-and-sort pipeline. -/
theorem reconcile_history_shape (L : LatestVersions) (p : Option VersionData) :
    ∃ X, ((reconcile L p).2).history = mergeHistory X := by
  cases p with
  | none => exact ⟨[], rfl⟩
  | some ex => exact ⟨_, rfl⟩

/-! ### Claim theorems -/

/-- C2: with no prior state the reconciliation reports a change, takes the
fetched descriptors as `latest` with both channels timestamped `now`, and
produces an empty history. -/
theorem reconcile_bootstrap (st pv : FetchedChannel) (now : Nat) :
    reconcile (mkLatest st pv now) none =
      (true,
       { latest :=
           { stable := { version := st.version, windows := st.windows,
                         linux := st.linux, releasedAt := now },
             preview := { version := pv.version, windows := pv.windows,
                          linux := pv.linux, releasedAt := now } },
         history := [] }) := rfl

/-- C3: the `changed` flag is exactly the disjunction of "no prior state",
"stable version string differs" and "preview version string differs",
each channel compared independently by string equality. -/
theorem reconcile_changed_iff (L : LatestVersions) (p : Option VersionData) :
    (reconcile L p).1 = true ↔
      p = none ∨ ∃ ex, p = some ex ∧
        (ex.latest.stable.version ≠ L.stable.version ∨
         ex.latest.preview.version ≠ L.preview.version) := by
  cases p with
  | none => simp [reconcile]
  | some ex =>
    rw [reconcile_some]
    simp [bne_iff_ne]

/-- C1: reconciling a second time with the same fetched descriptors and
the first run's output as prior state reports `changed = false` and
returns the first run's state unchanged (same latest entries, same
timestamps, same history). -/
theorem reconcile_idempotent (st pv : FetchedChannel) (now : Nat)
    (p : Option VersionData) :
    reconcile (mkLatest st pv now) (some (reconcile (mkLatest st pv now) p).2) =
      (false, (reconcile (mkLatest st pv now) p).2) := by
  obtain ⟨ts, hs⟩ := reconcile_latest_stable st pv now p
  obtain ⟨tp, hp2⟩ := reconcile_latest_preview st pv now p
  obtain ⟨X, hX⟩ := reconcile_history_shape (mkLatest st pv now) p
  set S := (reconcile (mkLatest st pv now) p).2 with hS
  rw [reconcile_some]
  have hbs : (S.latest.stable.version != (mkLatest st pv now).stable.version) = false := by
    rw [hs]; simp [mkChan, mkLatest]
  have hbp : (S.latest.preview.version != (mkLatest st pv now).preview.version) = false := by
    rw [hp2]; simp [mkChan, mkLatest]
  have h1 : ({ (mkLatest st pv now).stable with
      releasedAt := S.latest.stable.releasedAt } : VersionInfo) = S.latest.stable := by
    rw [hs]; rfl
  have h2 : ({ (mkLatest st pv now).preview with
      releasedAt := S.latest.preview.releasedAt } : VersionInfo) = S.latest.preview := by
    rw [hp2]; rfl
  rw [hbs, hbp]
  simp only [Bool.false_eq_true, if_false, Bool.or_self, List.append_nil]
  rw [h1, h2, hX, mergeHistory_idem, ← hX]

/-- When the stable version changed, the prior stable descriptor's entry
survives into the output history, provided no earlier entry of the prior
history shares its key. -/
theorem reconcile_hist_stable {L : LatestVersions} {ex : VersionData}
    (hb : ex.latest.stable.version ≠ L.stable.version)
    (hfresh : ∀ e ∈ ex.history,
      entryKey e ≠ entryKey (priorEntry Channel.stable ex.latest.stable)) :
    priorEntry Channel.stable ex.latest.stable ∈
      ((reconcile L (some ex)).2).history := by
  rw [reconcile_some]
  dsimp only
  rw [if_pos (bne_iff_ne.mpr hb)]
  rw [mem_mergeHistory_iff]
  refine ⟨ex.history,
    (if ex.latest.preview.version != L.preview.version then
      [priorEntry Channel.preview ex.latest.preview] else []), ?_, hfresh⟩
  rw [List.append_assoc]
  rfl

/-- When the preview version changed, the prior preview descriptor's entry
survives into the output history, provided no earlier entry of the prior
history shares its key. -/
theorem reconcile_hist_preview {L : LatestVersions} {ex : VersionData}
    (hb : ex.latest.preview.version ≠ L.preview.version)
    (hfresh : ∀ e ∈ ex.history,
      entryKey e ≠ entryKey (priorEntry Channel.preview ex.latest.preview)) :
    priorEntry Channel.preview ex.latest.preview ∈
      ((reconcile L (some ex)).2).history := by
  rw [reconcile_some]
  dsimp only
  rw [if_pos (bne_iff_ne.mpr hb)]
  rw [mem_mergeHistory_iff]
  refine ⟨ex.history ++
    (if ex.latest.stable.version != L.stable.version then
      [priorEntry Channel.stable ex.latest.stable] else []), [], rfl, ?_⟩
  intro x hx
  rcases List.mem_append.mp hx with hx1 | hx2
  · exact hfresh x hx1
  · have hxt : x.type = Channel.stable := by
      by_cases hcond : (ex.latest.stable.version != L.stable.version) = true
      · rw [if_pos hcond] at hx2
        have : x = priorEntry Channel.stable ex.latest.stable := by simpa using hx2
        rw [this]; rfl
      · rw [if_neg hcond] at hx2
        simp at hx2
    intro hk
    have hk' : x.type = Channel.preview ∧
        x.version = ex.latest.preview.version := by
      simpa [entryKey, priorEntry] using hk
    rw [hxt] at hk'
    simp at hk'

/-- When the stable version changed, the output `latest.stable` is the
fetched stable descriptor as is. -/
theorem reconcile_latest_stable_changed {L : LatestVersions} {ex : VersionData}
    (hb : ex.latest.stable.version ≠ L.stable.version) :
    ((reconcile L (some ex)).2).latest.stable = L.stable := by
  rw [reconcile_some]
  dsimp only
  rw [if_pos (bne_iff_ne.mpr hb)]

/-- When the preview version changed, the output `latest.preview` is the
fetched preview descriptor as is. -/
theorem reconcile_latest_preview_changed {L : LatestVersions} {ex : VersionData}
    (hb : ex.latest.preview.version ≠ L.preview.version) :
    ((reconcile L (some ex)).2).latest.preview = L.preview := by
  rw [reconcile_some]
  dsimp only
  rw [if_pos (bne_iff_ne.mpr hb)]

/-- C4 counterexample: prior stable is 1.0 (locators x/y, timestamp 9)
and the prior history already holds a stable 1.0 entry with different
locators and timestamp; the fetched stable is 3.0, so the channel
changed, yet the output history does NOT contain the prior descriptor's
entry (deduplication keeps the older first occurrence instead). -/
theorem reconcile_appends_prior_counterexample :
    "1.0" ≠ "3.0" ∧
    ({ type := Channel.stable, version := "1.0", windows := "x", linux := "y",
       releasedAt := 9 } : HistoryEntry) ∉
      ((reconcile (mkLatest ⟨"3.0", "w", "l"⟩ ⟨"2.0", "pw", "pl"⟩ 10)
          (some { latest :=
                    { stable := { version := "1.0", windows := "x", linux := "y",
                                  releasedAt := 9 },
                      preview := { version := "2.0", windows := "pw", linux := "pl",
                                   releasedAt := 5 } },
                  history := [{ type := Channel.stable, version := "1.0",
                                windows := "a", linux := "b",
                                releasedAt := 5 }] })).2).history := by
  constructor
  · decide
  · decide

/-- C4 (amended): if a channel's fetched version differs from the prior
one, the channel's new latest is the fetched descriptor timestamped
`now` — unconditionally; and, provided the prior history holds no entry
with that channel and the prior version, the output history contains the
prior descriptor's entry (identifier, both locators, and the prior
descriptor's own timestamp). -/
theorem reconcile_appends_prior (st pv : FetchedChannel) (now : Nat)
    (ex : VersionData) (c : Channel)
    (hch : (latestOf ex.latest c).version ≠ (chanOf st pv c).version) :
    latestOf ((reconcile (mkLatest st pv now) (some ex)).2).latest c =
      mkChan (chanOf st pv c) now ∧
    ((∀ e ∈ ex.history,
        ¬(e.type = c ∧ e.version = (latestOf ex.latest c).version)) →
      priorEntry c (latestOf ex.latest c) ∈
        ((reconcile (mkLatest st pv now) (some ex)).2).history) := by
  cases c with
  | stable =>
    refine ⟨reconcile_latest_stable_changed hch, ?_⟩
    intro hfresh
    have hfresh2 : ∀ e ∈ ex.history,
        entryKey e ≠ entryKey (priorEntry Channel.stable ex.latest.stable) := by
      intro e he hk
      apply hfresh e he
      simpa [entryKey, priorEntry] using hk
    exact reconcile_hist_stable hch hfresh2
  | preview =>
    refine ⟨reconcile_latest_preview_changed hch, ?_⟩
    intro hfresh
    have hfresh2 : ∀ e ∈ ex.history,
        entryKey e ≠ entryKey (priorEntry Channel.preview ex.latest.preview) := by
      intro e he hk
      apply hfresh e he
      simpa [entryKey, priorEntry] using hk
    exact reconcile_hist_preview hch hfresh2

/-- C4 witness: a concrete changed stable channel with a fresh prior
version; the fetched descriptor becomes latest, timestamped 10, and the
prior descriptor lands in the history. -/
theorem reconcile_appends_prior_witness :
    latestOf ((reconcile (mkLatest ⟨"2.0", "w2", "l2"⟩ ⟨"5.0", "pw", "pl"⟩ 10)
        (some ⟨⟨⟨"1.0", "x", "y", 3⟩, ⟨"5.0", "pw", "pl", 4⟩⟩, []⟩)).2).latest Channel.stable =
      mkChan (chanOf ⟨"2.0", "w2", "l2"⟩ ⟨"5.0", "pw", "pl"⟩ Channel.stable) 10 ∧
    priorEntry Channel.stable
        (latestOf (⟨⟨⟨"1.0", "x", "y", 3⟩, ⟨"5.0", "pw", "pl", 4⟩⟩, []⟩ : VersionData).latest
          Channel.stable) ∈
      ((reconcile (mkLatest ⟨"2.0", "w2", "l2"⟩ ⟨"5.0", "pw", "pl"⟩ 10)
          (some ⟨⟨⟨"1.0", "x", "y", 3⟩, ⟨"5.0", "pw", "pl", 4⟩⟩, []⟩)).2).history :=
  ⟨(reconcile_appends_prior ⟨"2.0", "w2", "l2"⟩ ⟨"5.0", "pw", "pl"⟩ 10
      ⟨⟨⟨"1.0", "x", "y", 3⟩, ⟨"5.0", "pw", "pl", 4⟩⟩, []⟩ Channel.stable (by decide)).1,
   (reconcile_appends_prior ⟨"2.0", "w2", "l2"⟩ ⟨"5.0", "pw", "pl"⟩ 10
      ⟨⟨⟨"1.0", "x", "y", 3⟩, ⟨"5.0", "pw", "pl", 4⟩⟩, []⟩ Channel.stable (by decide)).2
     (by simp)⟩

/-- C5: when a channel's fetched version string equals the prior one, the
channel's stored timestamp is preserved exactly (not replaced by `now`),
and every entry of that channel in the output history already was in the
prior history — even when the other channel did change. -/
theorem reconcile_unchanged_channel (L : LatestVersions) (ex : VersionData)
    (c : Channel)
    (h : (latestOf ex.latest c).version = (latestOf L c).version) :
    (latestOf ((reconcile L (some ex)).2).latest c).releasedAt =
        (latestOf ex.latest c).releasedAt ∧
    ∀ e ∈ ((reconcile L (some ex)).2).history, e.type = c → e ∈ ex.history := by
  cases c with
  | stable =>
    have hb : ¬((ex.latest.stable.version != L.stable.version) = true) := by
      rw [bne_iff_ne]
      exact fun hne => hne h
    constructor
    · rw [reconcile_some]
      dsimp only [latestOf]
      rw [if_neg hb]
    · intro e he ht
      rw [reconcile_some] at he
      dsimp only at he
      rw [if_neg hb, List.append_nil] at he
      have hmem := mergeHistory_subset he
      rcases List.mem_append.mp hmem with h1 | h2
      · exact h1
      · exfalso
        have het : e.type = Channel.preview := by
          by_cases hp : (ex.latest.preview.version != L.preview.version) = true
          · rw [if_pos hp] at h2
            have he2 : e = priorEntry Channel.preview ex.latest.preview := by
              simpa using h2
            rw [he2]; rfl
          · rw [if_neg hp] at h2
            simp at h2
        rw [ht] at het
        simp at het
  | preview =>
    have hb : ¬((ex.latest.preview.version != L.preview.version) = true) := by
      rw [bne_iff_ne]
      exact fun hne => hne h
    constructor
    · rw [reconcile_some]
      dsimp only [latestOf]
      rw [if_neg hb]
    · intro e he ht
      rw [reconcile_some] at he
      dsimp only at he
      rw [if_neg hb, List.append_nil] at he
      have hmem := mergeHistory_subset he
      rcases List.mem_append.mp hmem with h1 | h2
      · exact h1
      · exfalso
        have het : e.type = Channel.stable := by
          by_cases hp : (ex.latest.stable.version != L.stable.version) = true
          · rw [if_pos hp] at h2
            have he2 : e = priorEntry Channel.stable ex.latest.stable := by
              simpa using h2
            rw [he2]; rfl
          · rw [if_neg hp] at h2
            simp at h2
        rw [ht] at het
        simp at het

/-- C5 witness: the stable channel is unchanged while the preview channel
changed; the stable timestamp 3 is kept and the output history's stable
entries all come from the prior history. -/
theorem reconcile_unchanged_channel_witness :
    (latestOf ((reconcile ⟨⟨"1.0", "w", "l", 10⟩, ⟨"9.0", "pw", "pl", 10⟩⟩
        (some ⟨⟨⟨"1.0", "xw", "xl", 3⟩, ⟨"8.0", "ow", "ol", 2⟩⟩,
          [⟨Channel.preview, "7.0", "hw", "hl", 1⟩]⟩)).2).latest Channel.stable).releasedAt =
      (latestOf (⟨⟨⟨"1.0", "xw", "xl", 3⟩, ⟨"8.0", "ow", "ol", 2⟩⟩,
          [⟨Channel.preview, "7.0", "hw", "hl", 1⟩]⟩ : VersionData).latest
        Channel.stable).releasedAt ∧
    ∀ e ∈ ((reconcile ⟨⟨"1.0", "w", "l", 10⟩, ⟨"9.0", "pw", "pl", 10⟩⟩
        (some ⟨⟨⟨"1.0", "xw", "xl", 3⟩, ⟨"8.0", "ow", "ol", 2⟩⟩,
          [⟨Channel.preview, "7.0", "hw", "hl", 1⟩]⟩)).2).history,
      e.type = Channel.stable →
        e ∈ [⟨Channel.preview, "7.0", "hw", "hl", 1⟩] :=
  reconcile_unchanged_channel ⟨⟨"1.0", "w", "l", 10⟩, ⟨"9.0", "pw", "pl", 10⟩⟩
    ⟨⟨⟨"1.0", "xw", "xl", 3⟩, ⟨"8.0", "ow", "ol", 2⟩⟩,
      [⟨Channel.preview, "7.0", "hw", "hl", 1⟩]⟩ Channel.stable (by decide)

/-- C6: after the dedupe-and-sort pipeline no two history entries share
both channel and version, and an entry survives exactly when it is the
first occurrence of its `(type, version)` key in the pre-sort input. -/
theorem history_dedup_first (l : List HistoryEntry) :
    (mergeHistory l).Pairwise (fun a b => entryKey a ≠ entryKey b) ∧
    ∀ e, e ∈ mergeHistory l ↔
      ∃ l1 l2, l = l1 ++ e :: l2 ∧ ∀ x ∈ l1, entryKey x ≠ entryKey e :=
  ⟨mergeHistory_unique l, fun _ => mem_mergeHistory_iff⟩

/-- C7: the sort orders the history by timestamp descending (newest
first), and entries with equal timestamps keep their relative input
order (the fibre of each time value is untouched). -/
theorem history_sorted_stable (l : List HistoryEntry) :
    (sortHistory l).Pairwise (fun a b => b.releasedAt ≤ a.releasedAt) ∧
    ∀ t, (sortHistory l).filter (fun e => e.releasedAt == t) =
      l.filter (fun e => e.releasedAt == t) :=
  ⟨sortHistory_sorted l, fun t => sortHistory_filter l t⟩

/-- C8 counterexample: a file that exists but cannot be parsed is loaded
as `absent` (the code logs a warning and returns `null`), not as the
`StoreReadError` the claim requires. -/
theorem load_unparseable_counterexample :
    loadExistingData FileState.unparseable = LoadOutcome.absent ∧
      LoadOutcome.absent ≠ LoadOutcome.readError := by
  constructor
  · rfl
  · decide

/-- C8 (amended): loading returns absent when no file exists, and ALSO
returns absent (after logging a warning) when the file exists but cannot
be parsed; a read error is never produced, so the reconciler does run in
bootstrap mode on unparseable input. -/
theorem load_conflates_missing_and_corrupt :
    loadExistingData FileState.missing = LoadOutcome.absent ∧
    loadExistingData FileState.unparseable = LoadOutcome.absent ∧
    ∀ f, loadExistingData f ≠ LoadOutcome.readError := by
  refine ⟨rfl, rfl, ?_⟩
  intro f
  cases f <;> simp [loadExistingData]

/-- C10: when the prior history already satisfies the key-uniqueness
invariant, reconciliation never drops one of its entries: every prior
history entry is still in the output history. -/
theorem reconcile_preserves_history (L : LatestVersions) (ex : VersionData)
    (hu : ex.history.Pairwise (fun a b => entryKey a ≠ entryKey b)) :
    ∀ e ∈ ex.history, e ∈ ((reconcile L (some ex)).2).history := by
  intro e he
  rw [reconcile_some]
  dsimp only
  rw [mem_mergeHistory_iff]
  obtain ⟨l1, l2, hdec⟩ := List.append_of_mem he
  rw [hdec] at hu
  have hfirst : ∀ x ∈ l1, entryKey x ≠ entryKey e := by
    intro x hx
    exact (List.pairwise_append.mp hu).2.2 x hx e (List.mem_cons_self _ _)
  rw [hdec]
  refine ⟨l1,
    l2 ++ (if ex.latest.stable.version != L.stable.version then
        [priorEntry Channel.stable ex.latest.stable] else []) ++
      (if ex.latest.preview.version != L.preview.version then
        [priorEntry Channel.preview ex.latest.preview] else []), ?_, hfirst⟩
  simp [List.append_assoc]

/-- C10 witness: the prior history's single entry, whose key is unique,
survives reconciliation. -/
theorem reconcile_preserves_history_witness :
    (⟨Channel.stable, "0.9", "hw", "hl", 1⟩ : HistoryEntry) ∈
      ((reconcile ⟨⟨"2.0", "w", "l", 10⟩, ⟨"3.0", "pw", "pl", 10⟩⟩
        (some ⟨⟨⟨"1.0", "xw", "xl", 5⟩, ⟨"3.0", "ow", "ol", 6⟩⟩,
          [⟨Channel.stable, "0.9", "hw", "hl", 1⟩]⟩)).2).history :=
  reconcile_preserves_history ⟨⟨"2.0", "w", "l", 10⟩, ⟨"3.0", "pw", "pl", 10⟩⟩
    ⟨⟨⟨"1.0", "xw", "xl", 5⟩, ⟨"3.0", "ow", "ol", 6⟩⟩,
      [⟨Channel.stable, "0.9", "hw", "hl", 1⟩]⟩ (by simp)
    ⟨Channel.stable, "0.9", "hw", "hl", 1⟩ (by decide)

/-! ### Helper lemmas: version extraction -/

/-- The characters a `takeWhile Char.isDigit` keeps are digits. -/
theorem takeWhile_all_digits (l : List Char) :
    (l.takeWhile Char.isDigit).all Char.isDigit = true := by
  rw [List.all_eq_true]
  intro x hx
  exact List.mem_takeWhile_imp hx

/-- What a successful `\.\d+` group means: the consumed part is a dot
followed by a nonempty digit run, and the input splits accordingly. -/
theorem matchDotNum_spec {l c r : List Char}
    (h : matchDotNum l = some (c, r)) :
    ∃ ds, c = '.' :: ds ∧ ds ≠ [] ∧ ds.all Char.isDigit = true ∧ l = c ++ r := by
  cases l with
  | nil => simp [matchDotNum] at h
  | cons a rest =>
    rw [matchDotNum] at h
    by_cases ha : a = '.'
    · rw [if_pos ha] at h
      by_cases he : (rest.takeWhile Char.isDigit).isEmpty = true
      · rw [if_pos he] at h
        exact absurd h (by simp)
      · rw [if_neg he] at h
        have hinj : '.' :: rest.takeWhile Char.isDigit = c ∧
            rest.dropWhile Char.isDigit = r := by simpa using h
        obtain ⟨hc, hr⟩ := hinj
        refine ⟨rest.takeWhile Char.isDigit, hc.symm, ?_, takeWhile_all_digits rest, ?_⟩
        · intro hnil
          rw [hnil] at he
          simp at he
        · rw [← hc, ← hr, ha]
          simp [List.takeWhile_append_dropWhile]
    · rw [if_neg ha] at h
      exact absurd h (by simp)

/-- A three-component capture (`\d+\.\d+\.\d+` followed by `.zip`)
decomposes the input and has the dotted-number shape. -/
theorem matchTail_capture_three {l c2 r2 c3 r3 : List Char}
    (hd1 : ¬((l.takeWhile Char.isDigit).isEmpty = true))
    (heq2 : matchDotNum (l.dropWhile Char.isDigit) = some (c2, r2))
    (heq3 : matchDotNum r2 = some (c3, r3))
    (hpre : zipSuffix.isPrefixOf r3 = true) :
    (∃ post, l = (l.takeWhile Char.isDigit ++ c2 ++ c3) ++ zipSuffix ++ post) ∧
      VersionShape (l.takeWhile Char.isDigit ++ c2 ++ c3) := by
  obtain ⟨ds2, hc2, hn2, ha2, hr1⟩ := matchDotNum_spec heq2
  obtain ⟨ds3, hc3, hn3, ha3, hr2⟩ := matchDotNum_spec heq3
  obtain ⟨post, hpost⟩ := List.isPrefixOf_iff_prefix.mp hpre
  have hd1' : l.takeWhile Char.isDigit ≠ [] := by
    intro hnil
    rw [hnil] at hd1
    simp at hd1
  constructor
  · refine ⟨post, ?_⟩
    conv_lhs => rw [← List.takeWhile_append_dropWhile Char.isDigit l]
    rw [hr1, hr2, ← hpost]
    simp [List.append_assoc]
  · refine ⟨l.takeWhile Char.isDigit, ds2, [ds3], ?_, hd1', takeWhile_all_digits l,
      hn2, ha2, ?_, Or.inl rfl⟩
    · rw [hc2, hc3]
      simp [List.append_assoc]
    · intro d hd
      have : d = ds3 := by simpa using hd
      rw [this]
      exact ⟨hn3, ha3⟩

/-- A four-component capture (`\d+(\.\d+){3}` followed by `.zip`)
decomposes the input and has the dotted-number shape. -/
theorem matchTail_capture_four {l c2 r2 c3 r3 c4 r4 : List Char}
    (hd1 : ¬((l.takeWhile Char.isDigit).isEmpty = true))
    (heq2 : matchDotNum (l.dropWhile Char.isDigit) = some (c2, r2))
    (heq3 : matchDotNum r2 = some (c3, r3))
    (heq4 : matchDotNum r3 = some (c4, r4))
    (hpre : zipSuffix.isPrefixOf r4 = true) :
    (∃ post, l = (l.takeWhile Char.isDigit ++ c2 ++ c3 ++ c4) ++ zipSuffix ++ post) ∧
      VersionShape (l.takeWhile Char.isDigit ++ c2 ++ c3 ++ c4) := by
  obtain ⟨ds2, hc2, hn2, ha2, hr1⟩ := matchDotNum_spec heq2
  obtain ⟨ds3, hc3, hn3, ha3, hr2⟩ := matchDotNum_spec heq3
  obtain ⟨ds4, hc4, hn4, ha4, hr3⟩ := matchDotNum_spec heq4
  obtain ⟨post, hpost⟩ := List.isPrefixOf_iff_prefix.mp hpre
  have hd1' : l.takeWhile Char.isDigit ≠ [] := by
    intro hnil
    rw [hnil] at hd1
    simp at hd1
  constructor
  · refine ⟨post, ?_⟩
    conv_lhs => rw [← List.takeWhile_append_dropWhile Char.isDigit l]
    rw [hr1, hr2, hr3, ← hpost]
    simp [List.append_assoc]
  · refine ⟨l.takeWhile Char.isDigit, ds2, [ds3, ds4], ?_, hd1', takeWhile_all_digits l,
      hn2, ha2, ?_, Or.inr rfl⟩
    · rw [hc2, hc3, hc4]
      simp [List.append_assoc]
    · intro d hd
      rcases (by simpa using hd : d = ds3 ∨ d = ds4) with rfl | rfl
      · exact ⟨hn3, ha3⟩
      · exact ⟨hn4, ha4⟩

/-- Soundness of the tail matcher: a returned capture is followed in the
input by `.zip`, and has the dotted-number shape. -/
theorem matchTail_spec {l cap : List Char} (h : matchTail l = some cap) :
    (∃ post, l = cap ++ zipSuffix ++ post) ∧ VersionShape cap := by
  simp only [matchTail] at h
  split at h
  · exact absurd h (by simp)
  · split at h
    · exact absurd h (by simp)
    · rename_i hd1 p2 c2 r2 heq2
      split at h
      · exact absurd h (by simp)
      · rename_i p3 c3 r3 heq3
        split at h
        · rename_i p4 c4 r4 heq4
          split at h
          · rename_i hpre4
            have hcap : l.takeWhile Char.isDigit ++ c2 ++ c3 ++ c4 = cap := by
              simpa using h
            rw [← hcap]
            exact matchTail_capture_four hd1 heq2 heq3 heq4 hpre4
          · split at h
            · rename_i hpre3
              have hcap : l.takeWhile Char.isDigit ++ c2 ++ c3 = cap := by
                simpa using h
              rw [← hcap]
              exact matchTail_capture_three hd1 heq2 heq3 hpre3
            · exact absurd h (by simp)
        · split at h
          · rename_i hpre3
            have hcap : l.takeWhile Char.isDigit ++ c2 ++ c3 = cap := by
              simpa using h
            rw [← hcap]
            exact matchTail_capture_three hd1 heq2 heq3 hpre3
          · exact absurd h (by simp)

/-- Soundness of the leftmost search: a returned capture occurs in the
URL right after `bedrock-server-` and right before `.zip`, and has the
dotted-number shape. -/
theorem extractVersionAux_spec {l cap : List Char}
    (h : extractVersionAux l = some cap) :
    (∃ pre post, l = pre ++ serverMarker ++ cap ++ zipSuffix ++ post) ∧
      VersionShape cap := by
  induction l with
  | nil => simp [extractVersionAux] at h
  | cons c rest ih =>
    rw [extractVersionAux] at h
    by_cases hp : serverMarker.isPrefixOf (c :: rest) = true
    · rw [if_pos hp] at h
      split at h
      · rename_i cap2 hmt
        have hcap : cap2 = cap := by simpa using h
        subst hcap
        obtain ⟨t, ht⟩ := List.isPrefixOf_iff_prefix.mp hp
        have hdrop : (c :: rest).drop serverMarker.length = t := by
          rw [← ht]
          exact List.drop_left _ _
        rw [hdrop] at hmt
        obtain ⟨⟨post, hpost⟩, hshape⟩ := matchTail_spec hmt
        refine ⟨⟨[], post, ?_⟩, hshape⟩
        rw [← ht, hpost]
        simp [List.append_assoc]
      · obtain ⟨⟨pre, post, hdec⟩, hs⟩ := ih h
        exact ⟨⟨c :: pre, post, by rw [hdec]; rfl⟩, hs⟩
    · rw [if_neg hp] at h
      obtain ⟨⟨pre, post, hdec⟩, hs⟩ := ih h
      exact ⟨⟨c :: pre, post, by rw [hdec]; rfl⟩, hs⟩

/-- C9: the channel identifier resolution of `fetchLatestVersions`: if
the pattern matches the primary locator the captured dotted-number
substring is used; otherwise, if it matches the secondary locator that
capture is used; otherwise the sentinel `"unknown"`.  A returned capture
really is a pattern capture: the locator decomposes around
`bedrock-server-` ++ capture ++ `.zip` and the capture is 3 or 4
dot-separated digit runs. -/
theorem channelVersion_spec (p s : String) :
    (∀ v, extractVersion p = some v →
        channelVersion p s = v ∧ CapturedFrom p.data v.data) ∧
    (extractVersion p = none → ∀ v, extractVersion s = some v →
        channelVersion p s = v ∧ CapturedFrom s.data v.data) ∧
    (extractVersion p = none → extractVersion s = none →
        channelVersion p s = "unknown") := by
  refine ⟨?_, ?_, ?_⟩
  · intro v hv
    refine ⟨?_, ?_⟩
    · rw [channelVersion, hv]
      rfl
    · rw [extractVersion] at hv
      cases haux : extractVersionAux p.data with
      | none => rw [haux] at hv; simp at hv
      | some cap =>
        rw [haux] at hv
        have hvc : String.mk cap = v := by simpa using hv
        obtain ⟨hdec, hs⟩ := extractVersionAux_spec haux
        rw [← hvc]
        exact ⟨hdec, hs⟩
  · intro hp v hv
    refine ⟨?_, ?_⟩
    · rw [channelVersion, hp, hv]
      rfl
    · rw [extractVersion] at hv
      cases haux : extractVersionAux s.data with
      | none => rw [haux] at hv; simp at hv
      | some cap =>
        rw [haux] at hv
        have hvc : String.mk cap = v := by simpa using hv
        obtain ⟨hdec, hs⟩ := extractVersionAux_spec haux
        rw [← hvc]
        exact ⟨hdec, hs⟩
  · intro hp hs
    rw [channelVersion, hp, hs]
    rfl

/-- C9 witness: a concrete URL whose primary locator matches the
pattern. -/
theorem channelVersion_spec_witness :
    channelVersion "https://a/bedrock-server-1.2.3.zip" "" = "1.2.3" ∧
      CapturedFrom ("https://a/bedrock-server-1.2.3.zip" : String).data
        ("1.2.3" : String).data :=
  (channelVersion_spec "https://a/bedrock-server-1.2.3.zip" "").1 "1.2.3" (by decide)
